import Mathlib

/-!
# Verification of the bcrypt cost benchmark core (src/main.go)

Shallow embedding of the measurement-and-statistics engine.  A Go
`time.Duration` is an `int64` count of nanoseconds and is modelled as `Int`.
Go's `float64` arithmetic inside the statistics reducer is modelled as exact
rational arithmetic; the conversions `int(x)` and `time.Duration(x)` truncate
toward zero, modelled by `ratTrunc`.  `math.Sqrt` followed by the truncating
conversion to `time.Duration` yields, on a non-negative argument, the floor of
the real square root, realised computably as `Nat.sqrt` of the floor of the
rational radicand (justified by the lemma `floor_real_sqrt` below).  The calls
to `bcrypt.GenerateFromPassword` together with the wall clock are modelled by
an oracle `trial : Int → Int → Except String Int` giving, for each cost level
and 1-based iteration index, either the error returned by the primitive or the
measured elapsed nanoseconds; `log.Fatalf` (which terminates the process, so
nothing is returned or reported) is modelled as `Except.error`.
-/

/-- Go `time.Millisecond` in nanoseconds. -/
def millisecond : Int := 1000000

/-- Go `time.Second` in nanoseconds. -/
def second : Int := 1000000000

/-- Truncation of a rational toward zero: the semantics of Go's
float64-to-integer conversions `int(x)` and `time.Duration(x)`. -/
def ratTrunc (q : ℚ) : ℤ := if 0 ≤ q then ⌊q⌋ else ⌈q⌉

/-- `Config` (src/main.go lines 19-25); the CLI-only fields `Password` and
`GenerateLength` belong to the excluded glue layer. -/
structure Config where
  StartCost : Int
  EndCost : Int
  Iterations : Int

/-- `CostResult` (src/main.go lines 27-37). -/
structure CostResult where
  Cost : Int
  Durations : List Int
  Mean : Int
  StdDev : Int
  P25 : Int
  P75 : Int
  P95 : Int
  P99 : Int
  Iterations : Int

/-- `calculateMean` (src/main.go lines 153-159): sum the durations in the
native integer unit, then divide once; Go's `int64` division truncates toward
zero (`Int.tdiv`). -/
def calculateMean (durations : List Int) : Int :=
  Int.tdiv (durations.foldl (· + ·) 0) (durations.length : Int)

/-- `calculateStdDev` (src/main.go lines 161-174): Bessel-corrected sample
standard deviation, `0` when fewer than two samples.  Go accumulates
`diff * diff` in `float64` and converts `math.Sqrt(variance)` to
`time.Duration`; on the non-negative radicand this is `⌊√variance⌋`, realised
computably as `Nat.sqrt ⌊variance⌋.toNat` (see `floor_real_sqrt`). -/
def calculateStdDev (durations : List Int) (mean : Int) : Int :=
  if durations.length < 2 then 0
  else
    let sumSquares : ℚ :=
      durations.foldl (fun acc d => acc + ((d - mean : Int) : ℚ) * ((d - mean : Int) : ℚ)) 0
    let variance : ℚ := sumSquares / ((durations.length : ℚ) - 1)
    (Nat.sqrt ⌊variance⌋.toNat : ℤ)

/-- `calculatePercentile` (src/main.go lines 176-194) on the ascending-sorted
sample list.  `lower := int(rank)` and the final `time.Duration(...)`
conversion truncate toward zero (`ratTrunc`).  Out-of-range indexing cannot be
reached thanks to the `upper >= len(sorted)` guard; `getD` with default `0`
makes the embedding total. -/
def calculatePercentile (sorted : List Int) (percentile : ℚ) : Int :=
  if sorted.length = 0 then 0
  else if sorted.length = 1 then sorted.getD 0 0
  else
    let rank : ℚ := (percentile / 100) * ((sorted.length : ℚ) - 1)
    let lower : ℤ := ratTrunc rank
    let upper : ℤ := lower + 1
    if (sorted.length : ℤ) ≤ upper then sorted.getD (sorted.length - 1) 0
    else
      let weight : ℚ := rank - (lower : ℚ)
      ratTrunc ((sorted.getD lower.toNat 0 : ℚ) * (1 - weight)
        + (sorted.getD (lower.toNat + 1) 0 : ℚ) * weight)

/-- `calculateStats` (src/main.go lines 132-151): copy the samples, sort the
copy ascending (`slices.Sort`; on a linear order any sort gives the same list,
modelled by `List.insertionSort`), reduce, and keep the original sample list
in the `Durations` field. -/
def calculateStats (cost : Int) (durations : List Int) : CostResult :=
  let sorted := List.insertionSort (· ≤ ·) durations
  let mean := calculateMean sorted
  let stdDev := calculateStdDev sorted mean
  { Cost := cost
    Durations := durations
    Mean := mean
    StdDev := stdDev
    P25 := calculatePercentile sorted 25
    P75 := calculatePercentile sorted 75
    P95 := calculatePercentile sorted 95
    P99 := calculatePercentile sorted 99
    Iterations := (durations.length : Int) }

/-- Inner loop of `runBenchmark` (src/main.go lines 111-122): run the
remaining `n` timed invocations at `cost`, the next having 1-based index
`iter`.  A hash error hits `log.Fatalf`, modelled as `Except.error`. -/
def runIterationsAux (trial : Int → Int → Except String Int) (cost : Int) :
    Nat → Int → Except String (List Int)
  | 0, _ => Except.ok []
  | n + 1, iter =>
    match trial cost iter with
    | Except.error e => Except.error e
    | Except.ok d =>
      match runIterationsAux trial cost n (iter + 1) with
      | Except.error e => Except.error e
      | Except.ok ds => Except.ok (d :: ds)

/-- Outer loop of `runBenchmark` (src/main.go lines 108-125): process the
remaining `n` cost levels starting at `cost`, appending one `CostResult` per
level. -/
def runBenchmarkAux (trial : Int → Int → Except String Int) (iterations : Int) :
    Nat → Int → Except String (List CostResult)
  | 0, _ => Except.ok []
  | n + 1, cost =>
    match runIterationsAux trial cost iterations.toNat 1 with
    | Except.error e => Except.error e
    | Except.ok durations =>
      match runBenchmarkAux trial iterations n (cost + 1) with
      | Except.error e => Except.error e
      | Except.ok rest => Except.ok (calculateStats cost durations :: rest)

/-- `runBenchmark` (src/main.go lines 104-130): `for cost := cfg.StartCost;
cost <= cfg.EndCost; cost++` runs `(cfg.EndCost + 1 - cfg.StartCost).toNat`
times.  The spinner output is cosmetic and not modelled. -/
def runBenchmark (cfg : Config) (trial : Int → Int → Except String Int) :
    Except String (List CostResult) :=
  runBenchmarkAux trial cfg.Iterations (cfg.EndCost + 1 - cfg.StartCost).toNat cfg.StartCost

/-- The recommendation switch of `printReport` (src/main.go lines 238-251),
lifted to a pure function of the mean. -/
def recommendation (mean : Int) : String :=
  if mean < 100 * millisecond then "Fast - consider higher cost for sensitive data"
  else if mean < 250 * millisecond then "Good - balanced security and performance"
  else if mean < 500 * millisecond then "Acceptable - may impact UX under load"
  else if mean < 1 * second then "Slow - may cause timeouts under load"
  else "Too slow - not recommended for production"

/-- The ascending list of `n` consecutive cost levels starting at `start`:
the sequence of loop indices of the sweep's outer loop. -/
def costRange (start : Int) : Nat → List Int
  | 0 => []
  | n + 1 => start :: costRange (start + 1) n

/-- A configuration whose sweep covers cost levels 10 to 14. -/
def cfgFail : Config := { StartCost := 10, EndCost := 14, Iterations := 3 }

/-- An oracle for which the hashing primitive fails on the 2nd iteration of
the 3rd cost level (cost 12) and succeeds everywhere else. -/
def trialFail : Int → Int → Except String Int := fun cost iter =>
  if cost = 12 ∧ iter = 2 then Except.error "bcrypt failure" else Except.ok 5000000

theorem calculateStats_Cost (cost : Int) (l : List Int) :
    (calculateStats cost l).Cost = cost := rfl

theorem calculateStats_Durations (cost : Int) (l : List Int) :
    (calculateStats cost l).Durations = l := rfl

theorem calculateStats_Iterations (cost : Int) (l : List Int) :
    (calculateStats cost l).Iterations = (l.length : Int) := rfl

theorem calculateStats_Mean (cost : Int) (l : List Int) :
    (calculateStats cost l).Mean = calculateMean (List.insertionSort (· ≤ ·) l) := rfl

theorem calculateStats_StdDev (cost : Int) (l : List Int) :
    (calculateStats cost l).StdDev =
      calculateStdDev (List.insertionSort (· ≤ ·) l)
        (calculateMean (List.insertionSort (· ≤ ·) l)) := rfl

theorem calculateStats_P25 (cost : Int) (l : List Int) :
    (calculateStats cost l).P25 = calculatePercentile (List.insertionSort (· ≤ ·) l) 25 := rfl

theorem calculateStats_P75 (cost : Int) (l : List Int) :
    (calculateStats cost l).P75 = calculatePercentile (List.insertionSort (· ≤ ·) l) 75 := rfl

theorem calculateStats_P95 (cost : Int) (l : List Int) :
    (calculateStats cost l).P95 = calculatePercentile (List.insertionSort (· ≤ ·) l) 95 := rfl

theorem calculateStats_P99 (cost : Int) (l : List Int) :
    (calculateStats cost l).P99 = calculatePercentile (List.insertionSort (· ≤ ·) l) 99 := rfl

/-- A successful inner loop returns exactly as many samples as its fuel. -/
theorem runIterationsAux_ok_length (trial : Int → Int → Except String Int) (cost : Int) :
    ∀ (n : Nat) (iter : Int) (ds : List Int),
      runIterationsAux trial cost n iter = Except.ok ds → ds.length = n := by
  intro n
  induction n with
  | zero =>
    intro iter ds h
    simp only [runIterationsAux, Except.ok.injEq] at h
    subst h
    rfl
  | succ m ih =>
    intro iter ds h
    cases htr : trial cost iter with
    | error e => simp [runIterationsAux, htr] at h
    | ok d =>
      cases hrec : runIterationsAux trial cost m (iter + 1) with
      | error e => simp [runIterationsAux, htr, hrec] at h
      | ok ds2 =>
        simp only [runIterationsAux, htr, hrec, Except.ok.injEq] at h
        subst h
        simp [ih (iter + 1) ds2 hrec]

/-- If every invocation in the window succeeds, the inner loop succeeds and
collects one sample per iteration. -/
theorem runIterationsAux_allOk (trial : Int → Int → Except String Int) (cost : Int) :
    ∀ (n : Nat) (iter : Int),
      (∀ i : Int, iter ≤ i → i < iter + (n : Int) → ∃ d, trial cost i = Except.ok d) →
      ∃ ds : List Int, runIterationsAux trial cost n iter = Except.ok ds ∧ ds.length = n := by
  intro n
  induction n with
  | zero => intro iter _; exact ⟨[], rfl, rfl⟩
  | succ m ih =>
    intro iter h
    obtain ⟨d, hd⟩ := h iter le_rfl (by push_cast; omega)
    obtain ⟨ds, hds, hlen⟩ := ih (iter + 1)
      (fun i ha hb => h i (by omega) (by push_cast at hb ⊢; omega))
    exact ⟨d :: ds, by simp [runIterationsAux, hd, hds], by simp [hlen]⟩

/-- If the first failing invocation at this cost level is iteration `i0`, the
inner loop stops there and reports that error. -/
theorem runIterationsAux_firstError (trial : Int → Int → Except String Int) (cost : Int)
    (e : String) (i0 : Int) (herr : trial cost i0 = Except.error e) :
    ∀ (n : Nat) (iter : Int), iter ≤ i0 → i0 < iter + (n : Int) →
      (∀ i : Int, iter ≤ i → i < i0 → ∃ d, trial cost i = Except.ok d) →
      runIterationsAux trial cost n iter = Except.error e := by
  intro n
  induction n with
  | zero =>
    intro iter h1 h2 _
    exfalso; push_cast at h2; omega
  | succ m ih =>
    intro iter h1 h2 hok
    by_cases hc : iter = i0
    · subst hc
      simp [runIterationsAux, herr]
    · obtain ⟨d, hd⟩ := hok iter le_rfl (by omega)
      have hrec := ih (iter + 1) (by omega) (by push_cast at h2 ⊢; omega)
        (fun i ha hb => hok i (by omega) hb)
      simp [runIterationsAux, hd, hrec]

/-- Every `CostResult` of a successful sweep holds exactly `iterations`
samples (fuel `iterations.toNat` of the inner loop). -/
theorem runBenchmarkAux_ok_mem (trial : Int → Int → Except String Int) (iterations : Int) :
    ∀ (n : Nat) (cost : Int) (rs : List CostResult),
      runBenchmarkAux trial iterations n cost = Except.ok rs →
      ∀ r ∈ rs, r.Iterations = (iterations.toNat : Int) ∧
        r.Durations.length = iterations.toNat := by
  intro n
  induction n with
  | zero =>
    intro cost rs h r hr
    simp only [runBenchmarkAux, Except.ok.injEq] at h
    subst h
    simp at hr
  | succ m ih =>
    intro cost rs h r hr
    cases hrun : runIterationsAux trial cost iterations.toNat 1 with
    | error e => simp [runBenchmarkAux, hrun] at h
    | ok ds =>
      cases hrec : runBenchmarkAux trial iterations m (cost + 1) with
      | error e => simp [runBenchmarkAux, hrun, hrec] at h
      | ok rs2 =>
        simp only [runBenchmarkAux, hrun, hrec, Except.ok.injEq] at h
        subst h
        rcases List.mem_cons.mp hr with hr1 | hr2
        · subst hr1
          have hlen := runIterationsAux_ok_length trial cost iterations.toNat 1 ds hrun
          rw [calculateStats_Iterations, calculateStats_Durations, hlen]
          exact ⟨rfl, rfl⟩
        · exact ih (cost + 1) rs2 hrec r hr2

/-- With an always-succeeding oracle the sweep succeeds and emits one summary
per consecutive cost level. -/
theorem runBenchmarkAux_allOk (trial : Int → Int → Except String Int) (iterations : Int)
    (hok : ∀ c i : Int, ∃ d, trial c i = Except.ok d) :
    ∀ (n : Nat) (cost : Int),
      ∃ rs, runBenchmarkAux trial iterations n cost = Except.ok rs ∧
        rs.map (fun r => r.Cost) = costRange cost n := by
  intro n
  induction n with
  | zero => intro cost; exact ⟨[], rfl, rfl⟩
  | succ m ih =>
    intro cost
    obtain ⟨ds, hds, -⟩ := runIterationsAux_allOk trial cost iterations.toNat 1
      (fun i _ _ => hok cost i)
    obtain ⟨rs, hrs, hmap⟩ := ih (cost + 1)
    refine ⟨calculateStats cost ds :: rs, ?_, ?_⟩
    · simp [runBenchmarkAux, hds, hrs]
    · simp [List.map_cons, hmap, costRange, calculateStats_Cost]

/-- If the lexicographically first failing invocation is iteration `i0` of
cost level `c0`, the sweep stops there and reports that error. -/
theorem runBenchmarkAux_firstError (trial : Int → Int → Except String Int) (iterations : Int)
    (c0 i0 : Int) (e : String) (hi1 : 1 ≤ i0) (hi2 : i0 ≤ iterations)
    (herr : trial c0 i0 = Except.error e) :
    ∀ (n : Nat) (cost : Int), cost ≤ c0 → c0 < cost + (n : Int) →
      (∀ c i : Int, cost ≤ c → 1 ≤ i → i ≤ iterations →
        (c < c0 ∨ (c = c0 ∧ i < i0)) → ∃ d, trial c i = Except.ok d) →
      runBenchmarkAux trial iterations n cost = Except.error e := by
  intro n
  induction n with
  | zero =>
    intro cost h1 h2 _
    exfalso; push_cast at h2; omega
  | succ m ih =>
    intro cost h1 h2 hok
    by_cases hc : cost = c0
    · subst hc
      have hinner := runIterationsAux_firstError trial cost e i0 herr iterations.toNat 1
        hi1 (by omega)
        (fun i ha hb => hok cost i le_rfl ha (by omega) (Or.inr ⟨rfl, hb⟩))
      simp [runBenchmarkAux, hinner]
    · have hcost : cost < c0 := lt_of_le_of_ne h1 hc
      obtain ⟨ds, hds, -⟩ := runIterationsAux_allOk trial cost iterations.toNat 1
        (fun i ha hb => hok cost i le_rfl ha (by omega) (Or.inl hcost))
      have hrec := ih (cost + 1) (by omega) (by push_cast at h2 ⊢; omega)
        (fun c i ha hb hb2 hd => hok c i (by omega) hb hb2 hd)
      simp [runBenchmarkAux, hds, hrec]

theorem costRange_length : ∀ (n : Nat) (start : Int), (costRange start n).length = n := by
  intro n
  induction n with
  | zero => intro start; rfl
  | succ m ih => intro start; simp [costRange, ih]

theorem costRange_chain' : ∀ (n : Nat) (start : Int),
    List.Chain' (· < ·) (costRange start n) := by
  intro n
  induction n with
  | zero => intro start; simp [costRange]
  | succ m ih =>
    intro start
    rw [costRange, List.chain'_cons']
    refine ⟨?_, ih (start + 1)⟩
    intro y hy
    cases m with
    | zero => simp [costRange] at hy
    | succ k =>
      rw [costRange] at hy
      simp only [List.head?_cons, Option.mem_def, Option.some.injEq] at hy
      omega

theorem costRange_count : ∀ (n : Nat) (start c : Int),
    (costRange start n).count c = if start ≤ c ∧ c < start + (n : Int) then 1 else 0 := by
  intro n
  induction n with
  | zero =>
    intro start c
    rw [costRange, if_neg (by push_cast; omega)]
    rfl
  | succ m ih =>
    intro start c
    rw [costRange, List.count_cons, ih]
    simp only [beq_iff_eq]
    push_cast
    split_ifs <;> omega

/-- Claim C9: the reducer leaves the caller's sample sequence untouched: the
`Durations` field of the produced summary is the original (unsorted) list, and
every statistic depends only on the multiset of samples — the sort happens on
a private copy. -/
theorem reducer_preserves_input_spec :
    (∀ (cost : Int) (l : List Int), (calculateStats cost l).Durations = l) ∧
    (∀ (cost : Int) (l l2 : List Int), l.Perm l2 →
      (calculateStats cost l).Mean = (calculateStats cost l2).Mean ∧
      (calculateStats cost l).StdDev = (calculateStats cost l2).StdDev ∧
      (calculateStats cost l).P25 = (calculateStats cost l2).P25 ∧
      (calculateStats cost l).P75 = (calculateStats cost l2).P75 ∧
      (calculateStats cost l).P95 = (calculateStats cost l2).P95 ∧
      (calculateStats cost l).P99 = (calculateStats cost l2).P99) := by
  refine ⟨fun cost l => rfl, ?_⟩
  intro cost l l2 hperm
  have hsort : List.insertionSort (· ≤ ·) l = List.insertionSort (· ≤ ·) l2 :=
    List.eq_of_perm_of_sorted
      ((List.perm_insertionSort _ l).trans (hperm.trans (List.perm_insertionSort _ l2).symm))
      (List.sorted_insertionSort _ l) (List.sorted_insertionSort _ l2)
  rw [calculateStats_Mean, calculateStats_Mean, calculateStats_StdDev, calculateStats_StdDev,
    calculateStats_P25, calculateStats_P25, calculateStats_P75, calculateStats_P75,
    calculateStats_P95, calculateStats_P95, calculateStats_P99, calculateStats_P99, hsort]
  exact ⟨rfl, rfl, rfl, rfl, rfl, rfl⟩

/-- Concrete instance of `reducer_preserves_input_spec` on the permuted pair
`[2, 1]` and `[1, 2]`. -/
theorem reducer_preserves_input_spec_witness :
    (calculateStats 4 [2, 1]).Durations = [2, 1] ∧
    ((List.Perm ([2, 1] : List Int) [1, 2]) ∧
      (calculateStats 4 [2, 1]).Mean = (calculateStats 4 [1, 2]).Mean ∧
      (calculateStats 4 [2, 1]).StdDev = (calculateStats 4 [1, 2]).StdDev ∧
      (calculateStats 4 [2, 1]).P25 = (calculateStats 4 [1, 2]).P25 ∧
      (calculateStats 4 [2, 1]).P75 = (calculateStats 4 [1, 2]).P75 ∧
      (calculateStats 4 [2, 1]).P95 = (calculateStats 4 [1, 2]).P95 ∧
      (calculateStats 4 [2, 1]).P99 = (calculateStats 4 [1, 2]).P99) := by
  have hperm : List.Perm ([2, 1] : List Int) [1, 2] := List.Perm.swap 1 2 []
  exact ⟨reducer_preserves_input_spec.1 4 [2, 1],
    hperm, reducer_preserves_input_spec.2 4 [2, 1] [1, 2] hperm⟩

/-- Claim C6: with `start_cost ≤ end_cost` and an always-succeeding hashing
primitive, the sweep returns exactly one summary per integer cost level from
`start_cost` to `end_cost` inclusive, in strictly ascending cost order, with
`end_cost - start_cost + 1` summaries in total. -/
theorem sweep_cost_coverage_spec (cfg : Config) (trial : Int → Int → Except String Int)
    (hrange : cfg.StartCost ≤ cfg.EndCost)
    (hok : ∀ c i : Int, ∃ d, trial c i = Except.ok d) :
    ∃ rs : List CostResult,
      runBenchmark cfg trial = Except.ok rs ∧
      (rs.length : Int) = cfg.EndCost - cfg.StartCost + 1 ∧
      rs.map (fun r => r.Cost) = costRange cfg.StartCost (cfg.EndCost + 1 - cfg.StartCost).toNat ∧
      List.Chain' (· < ·) (rs.map (fun r => r.Cost)) ∧
      ∀ c : Int, cfg.StartCost ≤ c → c ≤ cfg.EndCost →
        (rs.map (fun r => r.Cost)).count c = 1 := by
  obtain ⟨rs, hrs, hmap⟩ := runBenchmarkAux_allOk trial cfg.Iterations hok
    (cfg.EndCost + 1 - cfg.StartCost).toNat cfg.StartCost
  refine ⟨rs, by rw [runBenchmark]; exact hrs, ?_, hmap, ?_, ?_⟩
  · have hlen := congrArg List.length hmap
    rw [List.length_map, costRange_length] at hlen
    rw [hlen]
    omega
  · rw [hmap]; exact costRange_chain' _ _
  · intro c h1 h2
    rw [hmap, costRange_count, if_pos ⟨h1, by omega⟩]

/-- Concrete instance of `sweep_cost_coverage_spec` for a sweep over costs
10 to 12. -/
theorem sweep_cost_coverage_spec_witness :
    ∃ rs : List CostResult,
      runBenchmark ⟨10, 12, 2⟩ (fun _ _ => Except.ok 7) = Except.ok rs ∧
      (rs.length : Int) = (12 : Int) - 10 + 1 ∧
      rs.map (fun r => r.Cost) = costRange 10 ((12 : Int) + 1 - 10).toNat ∧
      List.Chain' (· < ·) (rs.map (fun r => r.Cost)) ∧
      ∀ c : Int, (10 : Int) ≤ c → c ≤ 12 → (rs.map (fun r => r.Cost)).count c = 1 :=
  sweep_cost_coverage_spec ⟨10, 12, 2⟩ (fun _ _ => Except.ok 7) (by decide)
    (fun c i => ⟨7, rfl⟩)

/-- Claim C7: every summary of a successful sweep carries a sample count (and
a sample list) of exactly the configured number of iterations. -/
theorem sample_count_spec (cfg : Config) (trial : Int → Int → Except String Int)
    (rs : List CostResult) (hiter : 1 ≤ cfg.Iterations)
    (hrun : runBenchmark cfg trial = Except.ok rs) :
    ∀ r ∈ rs, r.Iterations = cfg.Iterations ∧
      (r.Durations.length : Int) = cfg.Iterations := by
  intro r hr
  rw [runBenchmark] at hrun
  obtain ⟨h1, h2⟩ :=
    runBenchmarkAux_ok_mem trial cfg.Iterations _ cfg.StartCost rs hrun r hr
  have hcast : ((cfg.Iterations.toNat : Nat) : Int) = cfg.Iterations :=
    Int.toNat_of_nonneg (by omega)
  exact ⟨by rw [h1, hcast], by rw [h2]; exact hcast⟩

/-- Concrete instance of `sample_count_spec`: a one-level sweep with two
iterations yields a summary with sample count 2. -/
theorem sample_count_spec_witness :
    (calculateStats 10 [7, 7]).Iterations = 2 ∧
    ((calculateStats 10 [7, 7]).Durations.length : Int) = 2 :=
  sample_count_spec ⟨10, 10, 2⟩ (fun _ _ => Except.ok 7) [calculateStats 10 [7, 7]]
    (by decide) rfl (calculateStats 10 [7, 7]) (by simp)

/-- Claim C1, amended: if the lexicographically first failing invocation is
iteration `i0` of cost level `c0` within the sweep's range, the whole sweep
aborts with exactly that error: no summary is produced for `c0` or any later
cost level, and — because `log.Fatalf` terminates the process before
`printReport` runs — the summaries of the already-completed cost levels are
discarded too, so nothing at all is returned or reported. -/
theorem sweep_aborts_on_first_hash_error (cfg : Config)
    (trial : Int → Int → Except String Int) (c0 i0 : Int) (e : String)
    (hc1 : cfg.StartCost ≤ c0) (hc2 : c0 ≤ cfg.EndCost)
    (hi1 : 1 ≤ i0) (hi2 : i0 ≤ cfg.Iterations)
    (herr : trial c0 i0 = Except.error e)
    (hok : ∀ c i : Int, cfg.StartCost ≤ c → 1 ≤ i → i ≤ cfg.Iterations →
      (c < c0 ∨ (c = c0 ∧ i < i0)) → ∃ d, trial c i = Except.ok d) :
    runBenchmark cfg trial = Except.error e := by
  rw [runBenchmark]
  exact runBenchmarkAux_firstError trial cfg.Iterations c0 i0 e hi1 hi2 herr
    (cfg.EndCost + 1 - cfg.StartCost).toNat cfg.StartCost hc1 (by omega) hok

/-- Concrete instance of `sweep_aborts_on_first_hash_error`: the sweep of
`cfgFail` under `trialFail` (first failure at cost 12, iteration 2) aborts
with the hash error. -/
theorem sweep_aborts_on_first_hash_error_witness :
    runBenchmark cfgFail trialFail = Except.error "bcrypt failure" :=
  sweep_aborts_on_first_hash_error cfgFail trialFail 12 2 "bcrypt failure"
    (by decide) (by decide) (by decide) (by decide) rfl
    (fun c i h1 h2 h3 h5 => ⟨5000000, by
      simp only [trialFail]
      rw [if_neg (by rintro ⟨rfl, rfl⟩; rcases h5 with h | ⟨-, h⟩ <;> omega)]⟩)

theorem ratTrunc_eq_floor {q : ℚ} (h : 0 ≤ q) : ratTrunc q = ⌊q⌋ := if_pos h

theorem ratTrunc_intCast (z : ℤ) : ratTrunc (z : ℚ) = z := by
  rw [ratTrunc]
  split_ifs
  · exact Int.floor_intCast z
  · exact Int.ceil_intCast z

/-- Truncation toward zero is monotone. -/
theorem ratTrunc_mono {p q : ℚ} (h : p ≤ q) : ratTrunc p ≤ ratTrunc q := by
  rw [ratTrunc, ratTrunc]
  split_ifs with h1 h2 h2
  · exact Int.floor_mono h
  · exact absurd (le_trans h1 h) h2
  · have hp : p ≤ 0 := le_of_not_le h1
    have hc : ⌈p⌉ ≤ 0 := Int.ceil_le.mpr (by exact_mod_cast hp)
    exact le_trans hc (Int.floor_nonneg.mpr h2)
  · exact Int.ceil_mono h

theorem getD_nonneg {s : List Int} (h : ∀ x ∈ s, 0 ≤ x) (i : Nat) : 0 ≤ s.getD i 0 := by
  rcases Nat.lt_or_ge i s.length with hi | hi
  · rw [List.getD_eq_getElem s 0 hi]
    exact h _ (by simp)
  · rw [List.getD_eq_getElem?_getD, List.getElem?_eq_none hi]
    rfl

/-- In an ascending-sorted list, `getD` (default `0`) is monotone on
in-bounds indices. -/
theorem sorted_getD_mono {s : List Int} (hs : List.Sorted (· ≤ ·) s)
    {i j : Nat} (hij : i ≤ j) (hj : j < s.length) : s.getD i 0 ≤ s.getD j 0 := by
  have hi : i < s.length := lt_of_le_of_lt hij hj
  rw [List.getD_eq_getElem s 0 hi, List.getD_eq_getElem s 0 hj]
  have hrel := List.Sorted.rel_get_of_le hs (a := ⟨i, hi⟩) (b := ⟨j, hj⟩) (Fin.mk_le_mk.mpr hij)
  simpa using hrel

/-- Unfolding of `calculatePercentile` on at least two samples. -/
theorem calculatePercentile_eq_of_two_le {s : List Int} (h2 : 2 ≤ s.length) (p : ℚ) :
    calculatePercentile s p =
      if (s.length : ℤ) ≤ ratTrunc (p / 100 * ((s.length : ℚ) - 1)) + 1 then
        s.getD (s.length - 1) 0
      else
        ratTrunc ((s.getD (ratTrunc (p / 100 * ((s.length : ℚ) - 1))).toNat 0 : ℚ)
            * (1 - (p / 100 * ((s.length : ℚ) - 1)
                - (ratTrunc (p / 100 * ((s.length : ℚ) - 1)) : ℚ)))
          + (s.getD ((ratTrunc (p / 100 * ((s.length : ℚ) - 1))).toNat + 1) 0 : ℚ)
            * (p / 100 * ((s.length : ℚ) - 1)
                - (ratTrunc (p / 100 * ((s.length : ℚ) - 1)) : ℚ))) := by
  rw [calculatePercentile, if_neg (by omega), if_neg (by omega)]

/-- On a non-negative rational radicand, the floor of the real square root is
`Nat.sqrt` of the floor: there is no perfect square strictly between `⌊q⌋` and
`q`.  This justifies the computable realisation of `math.Sqrt` composed with
the truncating `time.Duration` conversion in `calculateStdDev`. -/
theorem floor_real_sqrt (q : ℚ) (hq : 0 ≤ q) :
    ⌊Real.sqrt (q : ℝ)⌋ = (Nat.sqrt ⌊q⌋.toNat : ℤ) := by
  have h0 : (0:ℝ) ≤ (q:ℝ) := by exact_mod_cast hq
  have hfl : (0:ℤ) ≤ ⌊q⌋ := Int.floor_nonneg.mpr hq
  set s : ℕ := Nat.sqrt ⌊q⌋.toNat with hs
  have h1 : (s : ℝ) ≤ Real.sqrt (q : ℝ) := by
    rw [Real.le_sqrt (by positivity) h0]
    have h2 : (s ^ 2 : ℕ) ≤ ⌊q⌋.toNat := Nat.sqrt_le' _
    have h3 : ((⌊q⌋.toNat : ℤ) : ℝ) ≤ (q : ℝ) := by
      rw [Int.toNat_of_nonneg hfl]
      exact_mod_cast Int.floor_le q
    calc ((s : ℝ)) ^ 2 = ((s ^ 2 : ℕ) : ℝ) := by push_cast; ring
    _ ≤ ((⌊q⌋.toNat : ℕ) : ℝ) := by exact_mod_cast h2
    _ ≤ (q : ℝ) := by exact_mod_cast h3
  have h2 : Real.sqrt (q : ℝ) < (s : ℝ) + 1 := by
    rw [Real.sqrt_lt' (by positivity)]
    have h4 : ⌊q⌋.toNat < (s + 1) ^ 2 := by
      have h5 := Nat.lt_succ_sqrt' ⌊q⌋.toNat
      simpa [Nat.succ_eq_add_one] using h5
    have h5 : (q : ℝ) < (⌊q⌋ : ℝ) + 1 := by exact_mod_cast Int.lt_floor_add_one q
    have h4i : ⌊q⌋ < ((s : ℤ) + 1) ^ 2 := by
      zify at h4
      rwa [Int.toNat_of_nonneg hfl] at h4
    have h6 : ((⌊q⌋ : ℝ) + 1) ≤ ((s : ℝ) + 1) ^ 2 := by
      have h8 : ⌊q⌋ + 1 ≤ ((s : ℤ) + 1) ^ 2 := h4i
      exact_mod_cast h8
    linarith
  rw [Int.floor_eq_iff (z := (s : ℤ)) (a := Real.sqrt (q : ℝ))]
  constructor
  · exact_mod_cast h1
  · push_cast
    exact h2

/-- The running float sum of squared deviations in `calculateStdDev` is the
sum over the list. -/
theorem foldl_sq_eq_sum (mean : Int) (l : List Int) : ∀ a : ℚ,
    l.foldl (fun acc d => acc + ((d - mean : Int) : ℚ) * ((d - mean : Int) : ℚ)) a
      = a + (l.map (fun d => ((d - mean : Int) : ℚ) * ((d - mean : Int) : ℚ))).sum := by
  induction l with
  | nil => intro a; simp
  | cons x xs ih =>
    intro a
    simp only [List.foldl_cons, List.map_cons, List.sum_cons, ih]
    ring

/-- Casting a rational list sum to the reals, pointwise. -/
theorem list_sum_ratCast_real (l : List Int) (f : Int → ℚ) (g : Int → ℝ)
    (hfg : ∀ d, ((f d : ℚ) : ℝ) = g d) :
    (((l.map f).sum : ℚ) : ℝ) = (l.map g).sum := by
  induction l with
  | nil => simp
  | cons x xs ih =>
    rw [List.map_cons, List.sum_cons, List.map_cons, List.sum_cons, Rat.cast_add, hfg, ih]

/-- Claim C4: the standard deviation is the Bessel-corrected sample standard
deviation `√(Σ(xᵢ - mean)² / (n - 1))` for `n ≥ 2` (floored to an integer
duration by the `time.Duration` conversion), is exactly `0` for `n < 2`, and
equals `10ms` on `[10ms, 20ms, 30ms]`. -/
theorem stddev_bessel_sqrt_spec :
    (∀ (l : List Int) (mean : Int), l.length < 2 → calculateStdDev l mean = 0) ∧
    (∀ (l : List Int) (mean : Int), 2 ≤ l.length →
      calculateStdDev l mean =
        ⌊Real.sqrt ((l.map (fun d => ((d - mean : Int) : ℝ) ^ 2)).sum
          / ((l.length : ℝ) - 1))⌋) ∧
    calculateStdDev [10 * millisecond, 20 * millisecond, 30 * millisecond] (20 * millisecond)
      = 10 * millisecond := by
  refine ⟨?_, ?_, ?_⟩
  · intro l mean h
    rw [calculateStdDev, if_pos h]
  · intro l mean h2
    rw [calculateStdDev, if_neg (by omega)]
    have hfold : l.foldl
        (fun acc d => acc + ((d - mean : Int) : ℚ) * ((d - mean : Int) : ℚ)) 0
        = (l.map (fun d => ((d - mean : Int) : ℚ) * ((d - mean : Int) : ℚ))).sum := by
      rw [foldl_sq_eq_sum, zero_add]
    have hSq0 : 0 ≤ (l.map (fun d => ((d - mean : Int) : ℚ) * ((d - mean : Int) : ℚ))).sum :=
      List.sum_nonneg (by
        intro x hx
        obtain ⟨d, hd, hrev⟩ := List.mem_map.mp hx
        rw [← hrev]
        exact mul_self_nonneg _)
    have hden : (1 : ℚ) ≤ (l.length : ℚ) - 1 := by
      have hcast : (2 : ℚ) ≤ (l.length : ℚ) := by exact_mod_cast h2
      linarith
    have hv0 : 0 ≤ (l.map (fun d => ((d - mean : Int) : ℚ) * ((d - mean : Int) : ℚ))).sum
        / ((l.length : ℚ) - 1) := div_nonneg hSq0 (by linarith)
    have hsumcast :
        ((((l.map (fun d => ((d - mean : Int) : ℚ) * ((d - mean : Int) : ℚ))).sum : ℚ)) : ℝ)
          = (l.map (fun d => ((d - mean : Int) : ℝ) ^ 2)).sum :=
      list_sum_ratCast_real l _ _ (fun d => by push_cast; ring)
    have hcast :
        (((l.map (fun d => ((d - mean : Int) : ℚ) * ((d - mean : Int) : ℚ))).sum
            / ((l.length : ℚ) - 1) : ℚ) : ℝ)
          = (l.map (fun d => ((d - mean : Int) : ℝ) ^ 2)).sum / ((l.length : ℝ) - 1) := by
      rw [Rat.cast_div, hsumcast]
      congr 1
      push_cast
      ring
    rw [hfold, ← hcast, floor_real_sqrt _ hv0]
  · rw [calculateStdDev, if_neg (by decide)]
    simp only [millisecond, List.foldl, List.length]
    norm_num
    rw [show Int.toNat 100000000000000 = 10000000 * 10000000 from by decide, Nat.sqrt_eq]
    norm_num

/-- Concrete instances of `stddev_bessel_sqrt_spec`: a single sample has zero
spread, and the `n ≥ 2` closed form holds on `[0, 2]` with mean `1`. -/
theorem stddev_bessel_sqrt_spec_witness :
    (([5] : List Int).length < 2 ∧ calculateStdDev [5] 0 = 0) ∧
    (2 ≤ ([0, 2] : List Int).length ∧
      calculateStdDev [0, 2] 1 =
        ⌊Real.sqrt ((([0, 2] : List Int).map (fun d => ((d - 1 : Int) : ℝ) ^ 2)).sum
          / ((([0, 2] : List Int).length : ℝ) - 1))⌋) :=
  ⟨⟨by decide, stddev_bessel_sqrt_spec.1 [5] 0 (by decide)⟩,
   ⟨by decide, stddev_bessel_sqrt_spec.2.1 [0, 2] 1 (by decide)⟩⟩

/-- Claim C10: on the empty sample sequence the percentile computation is
total and returns a zero duration for every percentile, instead of failing or
indexing out of bounds (src/main.go lines 177-179). -/
theorem percentile_empty_zero_spec : ∀ p : ℚ, calculatePercentile [] p = 0 :=
  fun _ => rfl

/-- Claim C5: the recommendation is a pure function of the mean classifying it
into five ordered bands with strict upper breakpoints, first match wins:
`< 100ms` fast, `< 250ms` balanced, `< 500ms` acceptable, `< 1s` slow,
`≥ 1s` too slow; a mean of exactly 100ms lands in the balanced band and one
of exactly 250ms in the acceptable band. -/
theorem recommendation_band_spec :
    (∀ mean : Int, mean < 100 * millisecond →
      recommendation mean = "Fast - consider higher cost for sensitive data") ∧
    (∀ mean : Int, 100 * millisecond ≤ mean → mean < 250 * millisecond →
      recommendation mean = "Good - balanced security and performance") ∧
    (∀ mean : Int, 250 * millisecond ≤ mean → mean < 500 * millisecond →
      recommendation mean = "Acceptable - may impact UX under load") ∧
    (∀ mean : Int, 500 * millisecond ≤ mean → mean < 1 * second →
      recommendation mean = "Slow - may cause timeouts under load") ∧
    (∀ mean : Int, 1 * second ≤ mean →
      recommendation mean = "Too slow - not recommended for production") ∧
    recommendation (100 * millisecond) = "Good - balanced security and performance" ∧
    recommendation (250 * millisecond) = "Acceptable - may impact UX under load" := by
  refine ⟨?_, ?_, ?_, ?_, ?_, rfl, rfl⟩
  all_goals
    intro mean h1
    try intro h2
  · rw [recommendation, if_pos h1]
  · rw [recommendation, if_neg (by simp only [millisecond] at h1 ⊢; omega), if_pos h2]
  · rw [recommendation, if_neg (by simp only [millisecond] at h1 ⊢; omega),
      if_neg (by simp only [millisecond] at h1 ⊢; omega), if_pos h2]
  · rw [recommendation, if_neg (by simp only [millisecond] at h1 ⊢; omega),
      if_neg (by simp only [millisecond] at h1 ⊢; omega),
      if_neg (by simp only [millisecond] at h1 ⊢; omega), if_pos h2]
  · rw [recommendation, if_neg (by simp only [millisecond, second] at h1 ⊢; omega),
      if_neg (by simp only [millisecond, second] at h1 ⊢; omega),
      if_neg (by simp only [millisecond, second] at h1 ⊢; omega),
      if_neg (by simp only [millisecond, second] at h1 ⊢; omega)]

/-- Concrete instance of `recommendation_band_spec`: a 99.999ms mean is in the
fast band and a 1s mean in the too-slow band. -/
theorem recommendation_band_spec_witness :
    ((99999000 : Int) < 100 * millisecond ∧
      recommendation 99999000 = "Fast - consider higher cost for sensitive data") ∧
    (1 * second ≤ (1000000000 : Int) ∧
      recommendation 1000000000 = "Too slow - not recommended for production") :=
  ⟨⟨by decide, recommendation_band_spec.1 99999000 (by decide)⟩,
   ⟨by decide, recommendation_band_spec.2.2.2.2.1 1000000000 (by decide)⟩⟩

/-- The running sum in `calculateMean` is the list sum. -/
theorem foldl_add_eq_sum (l : List Int) : ∀ a : Int, l.foldl (· + ·) a = a + l.sum := by
  induction l with
  | nil => intro a; simp
  | cons x xs ih => intro a; simp only [List.foldl_cons, List.sum_cons, ih]; ring

/-- Claim C3: the mean is the arithmetic mean obtained by summing all
durations in the native integer unit first and dividing by `n` last (exact
integer arithmetic: the result is the floor of `sum / n` for non-negative
samples, with no floating-point accumulation); for `[10ms, 20ms, 30ms]` it is
exactly `20ms`. -/
theorem mean_integer_sum_div_spec :
    (∀ l : List Int, l ≠ [] → (∀ x ∈ l, 0 ≤ x) →
      calculateMean l = Int.tdiv l.sum (l.length : Int) ∧
      (l.length : Int) * calculateMean l ≤ l.sum ∧
      l.sum < (l.length : Int) * (calculateMean l + 1)) ∧
    calculateMean [10 * millisecond, 20 * millisecond, 30 * millisecond] = 20 * millisecond := by
  constructor
  · intro l hne hpos
    have hsum : calculateMean l = Int.tdiv l.sum (l.length : Int) := by
      rw [calculateMean, foldl_add_eq_sum, zero_add]
    have hlen : 0 < (l.length : Int) := by
      have : l.length ≠ 0 := fun h => hne (List.length_eq_zero.mp h)
      omega
    have hs : 0 ≤ l.sum := List.sum_nonneg hpos
    have hed : Int.tdiv l.sum (l.length : Int) = l.sum / (l.length : Int) :=
      Int.tdiv_eq_ediv hs hlen.le
    have key := Int.ediv_add_emod l.sum (l.length : Int)
    have h1 := Int.emod_nonneg l.sum (by omega : (l.length : Int) ≠ 0)
    have h2 := Int.emod_lt_of_pos l.sum hlen
    have hdistrib : (l.length : Int) * (l.sum / (l.length : Int) + 1)
        = (l.length : Int) * (l.sum / (l.length : Int)) + (l.length : Int) := by ring
    refine ⟨hsum, ?_, ?_⟩
    · rw [hsum, hed]; omega
    · rw [hsum, hed, hdistrib]; omega
  · decide

/-- Concrete instance of `mean_integer_sum_div_spec`: the floor-division
characterisation holds on `[3, 4]`. -/
theorem mean_integer_sum_div_spec_witness :
    (([3, 4] : List Int) ≠ [] ∧ ∀ x ∈ ([3, 4] : List Int), (0:Int) ≤ x) ∧
    calculateMean [3, 4] = Int.tdiv (([3, 4] : List Int).sum) 2 ∧
    (2 : Int) * calculateMean [3, 4] ≤ ([3, 4] : List Int).sum ∧
    ([3, 4] : List Int).sum < (2 : Int) * (calculateMean [3, 4] + 1) := by
  have h := mean_integer_sum_div_spec.1 [3, 4] (by decide) (by decide)
  exact ⟨⟨by decide, by decide⟩, h.1, h.2.1, h.2.2⟩

/-- Claim C1, counterexample to the claim as stated: with the hashing
primitive failing at cost 12 (the 3rd cost level), iteration 2, the sweep
terminates with the error and returns no list of summaries at all — in
particular the summaries for the two already-completed cost levels 10 and 11
are not returned or reported (`log.Fatalf` exits before `printReport` runs),
contradicting the claim that they still are. -/
theorem failing_sweep_returns_no_summaries :
    runBenchmark cfgFail trialFail = Except.error "bcrypt failure" ∧
    ∀ rs : List CostResult, runBenchmark cfgFail trialFail ≠ Except.ok rs := by
  have h : runBenchmark cfgFail trialFail = Except.error "bcrypt failure" := rfl
  exact ⟨h, fun rs hok => by rw [h] at hok; exact Except.noConfusion hok⟩

/-- Linear interpolation between order statistics is monotone in the
percentile: the core monotonicity property of `calculatePercentile` on a
sorted sample list. -/
theorem calculatePercentile_mono {s : List Int} (hs : List.Sorted (· ≤ ·) s)
    {p q : ℚ} (hp0 : 0 ≤ p) (hpq : p ≤ q) (hq100 : q ≤ 100) :
    calculatePercentile s p ≤ calculatePercentile s q := by
  by_cases h0 : s.length = 0
  · rw [calculatePercentile, calculatePercentile, if_pos h0, if_pos h0]
  by_cases h1 : s.length = 1
  · have e : ∀ t : ℚ, calculatePercentile s t = s.getD 0 0 := fun t => by
      rw [calculatePercentile, if_neg h0, if_pos h1]
    rw [e p, e q]
  have h2 : 2 ≤ s.length := by omega
  have hq0 : 0 ≤ q := le_trans hp0 hpq
  have hn1 : (1 : ℚ) ≤ (s.length : ℚ) - 1 := by
    have hcast : (2 : ℚ) ≤ (s.length : ℚ) := by exact_mod_cast h2
    linarith
  rw [calculatePercentile_eq_of_two_le h2 p, calculatePercentile_eq_of_two_le h2 q]
  set r : ℚ := p / 100 * ((s.length : ℚ) - 1) with hrdef
  set r2 : ℚ := q / 100 * ((s.length : ℚ) - 1) with hr2def
  have hr0 : 0 ≤ r := by
    rw [hrdef]; exact mul_nonneg (div_nonneg hp0 (by norm_num)) (by linarith)
  have hr20 : 0 ≤ r2 := by
    rw [hr2def]; exact mul_nonneg (div_nonneg hq0 (by norm_num)) (by linarith)
  have hrr2 : r ≤ r2 := by
    rw [hrdef, hr2def]
    exact mul_le_mul_of_nonneg_right
      ((div_le_div_iff_of_pos_right (by norm_num : (0:ℚ) < 100)).mpr hpq) (by linarith)
  have hr2max : r2 ≤ (s.length : ℚ) - 1 := by
    rw [hr2def]
    have hq1 : q / 100 ≤ 1 := by
      rw [div_le_one (by norm_num : (0:ℚ) < 100)]; exact hq100
    calc q / 100 * ((s.length : ℚ) - 1) ≤ 1 * ((s.length : ℚ) - 1) :=
      mul_le_mul_of_nonneg_right hq1 (by linarith)
    _ = (s.length : ℚ) - 1 := one_mul _
  have hL0 : 0 ≤ ⌊r⌋ := Int.floor_nonneg.mpr hr0
  have hLL2 : ⌊r⌋ ≤ ⌊r2⌋ := Int.floor_mono hrr2
  have hL2max : ⌊r2⌋ ≤ (s.length : ℤ) - 1 := by
    have hmono := Int.floor_mono hr2max
    rwa [show ((s.length : ℚ) - 1) = (((s.length : ℤ) - 1 : ℤ) : ℚ) by push_cast; ring,
      Int.floor_intCast] at hmono
  rw [ratTrunc_eq_floor hr0, ratTrunc_eq_floor hr20]
  have hw0 : 0 ≤ r - (⌊r⌋ : ℚ) := sub_nonneg.mpr (Int.floor_le r)
  have hw1 : r - (⌊r⌋ : ℚ) ≤ 1 := by linarith [Int.lt_floor_add_one r]
  have hw20 : 0 ≤ r2 - (⌊r2⌋ : ℚ) := sub_nonneg.mpr (Int.floor_le r2)
  by_cases hcl1 : (s.length : ℤ) ≤ ⌊r⌋ + 1
  · have hcl2 : (s.length : ℤ) ≤ ⌊r2⌋ + 1 := by omega
    rw [if_pos hcl1, if_pos hcl2]
  · by_cases hcl2 : (s.length : ℤ) ≤ ⌊r2⌋ + 1
    · rw [if_neg hcl1, if_pos hcl2]
      set A : ℤ := s.getD ⌊r⌋.toNat 0 with hA
      set B : ℤ := s.getD (⌊r⌋.toNat + 1) 0 with hB
      set Z : ℤ := s.getD (s.length - 1) 0 with hZ
      have hAB : A ≤ B := sorted_getD_mono hs (Nat.le_succ _) (by omega)
      have hBZ : B ≤ Z := sorted_getD_mono hs (by omega) (by omega)
      have hABq : (A : ℚ) ≤ (B : ℚ) := by exact_mod_cast hAB
      have hvB : (A : ℚ) * (1 - (r - (⌊r⌋ : ℚ))) + (B : ℚ) * (r - (⌊r⌋ : ℚ)) ≤ (B : ℚ) := by
        nlinarith [mul_nonneg (sub_nonneg.mpr hABq) (sub_nonneg.mpr hw1)]
      have hBZq : (B : ℚ) ≤ (Z : ℚ) := by exact_mod_cast hBZ
      have hfin := ratTrunc_mono (le_trans hvB hBZq)
      rwa [ratTrunc_intCast] at hfin
    · rw [if_neg hcl1, if_neg hcl2]
      rcases eq_or_lt_of_le hLL2 with hEq | hLt
      · rw [← hEq]
        apply ratTrunc_mono
        set A : ℤ := s.getD ⌊r⌋.toNat 0 with hA
        set B : ℤ := s.getD (⌊r⌋.toNat + 1) 0 with hB
        have hAB : A ≤ B := sorted_getD_mono hs (Nat.le_succ _) (by omega)
        have hABq : (A : ℚ) ≤ (B : ℚ) := by exact_mod_cast hAB
        have hww : r - (⌊r⌋ : ℚ) ≤ r2 - (⌊r⌋ : ℚ) := by linarith
        nlinarith [mul_nonneg (by linarith : (0:ℚ) ≤ r2 - r)
          (by linarith : (0:ℚ) ≤ (B : ℚ) - (A : ℚ))]
      · apply ratTrunc_mono
        set A : ℤ := s.getD ⌊r⌋.toNat 0 with hA
        set B : ℤ := s.getD (⌊r⌋.toNat + 1) 0 with hB
        set A2 : ℤ := s.getD ⌊r2⌋.toNat 0 with hA2
        set B2 : ℤ := s.getD (⌊r2⌋.toNat + 1) 0 with hB2
        have hAB : A ≤ B := sorted_getD_mono hs (Nat.le_succ _) (by omega)
        have hBA2 : B ≤ A2 := sorted_getD_mono hs (by omega) (by omega)
        have hA2B2 : A2 ≤ B2 := sorted_getD_mono hs (Nat.le_succ _) (by omega)
        have hABq : (A : ℚ) ≤ (B : ℚ) := by exact_mod_cast hAB
        have hBA2q : (B : ℚ) ≤ (A2 : ℚ) := by exact_mod_cast hBA2
        have hA2B2q : (A2 : ℚ) ≤ (B2 : ℚ) := by exact_mod_cast hA2B2
        have hvB : (A : ℚ) * (1 - (r - (⌊r⌋ : ℚ))) + (B : ℚ) * (r - (⌊r⌋ : ℚ)) ≤ (B : ℚ) := by
          nlinarith [mul_nonneg (sub_nonneg.mpr hABq) (sub_nonneg.mpr hw1)]
        have hA2v : (A2 : ℚ) ≤
            (A2 : ℚ) * (1 - (r2 - (⌊r2⌋ : ℚ))) + (B2 : ℚ) * (r2 - (⌊r2⌋ : ℚ)) := by
          nlinarith [mul_nonneg hw20 (sub_nonneg.mpr hA2B2q)]
        linarith

/-- Claim C8: for every non-empty sequence of non-negative samples the
summary satisfies `p25 ≤ p75 ≤ p95 ≤ p99` (the percentile reducer is monotone
in the percentile over the same sorted input), `mean ≥ 0` and `std_dev ≥ 0`. -/
theorem summary_monotone_nonneg_spec :
    (∀ s : List Int, List.Sorted (· ≤ ·) s →
      ∀ p q : ℚ, 0 ≤ p → p ≤ q → q ≤ 100 →
        calculatePercentile s p ≤ calculatePercentile s q) ∧
    (∀ (cost : Int) (l : List Int), l ≠ [] → (∀ x ∈ l, 0 ≤ x) →
      (calculateStats cost l).P25 ≤ (calculateStats cost l).P75 ∧
      (calculateStats cost l).P75 ≤ (calculateStats cost l).P95 ∧
      (calculateStats cost l).P95 ≤ (calculateStats cost l).P99 ∧
      0 ≤ (calculateStats cost l).Mean ∧
      0 ≤ (calculateStats cost l).StdDev) := by
  refine ⟨fun s hs p q hp hpq hq => calculatePercentile_mono hs hp hpq hq, ?_⟩
  intro cost l hne hpos
  have hsorted := List.sorted_insertionSort (· ≤ ·) l
  have hperm := List.perm_insertionSort (· ≤ ·) l
  have hpos2 : ∀ x ∈ List.insertionSort (· ≤ ·) l, 0 ≤ x :=
    fun x hx => hpos x (hperm.mem_iff.mp hx)
  rw [calculateStats_P25, calculateStats_P75, calculateStats_P95, calculateStats_P99,
    calculateStats_Mean, calculateStats_StdDev]
  refine ⟨calculatePercentile_mono hsorted (by norm_num) (by norm_num) (by norm_num),
    calculatePercentile_mono hsorted (by norm_num) (by norm_num) (by norm_num),
    calculatePercentile_mono hsorted (by norm_num) (by norm_num) (by norm_num), ?_, ?_⟩
  · rw [calculateMean, foldl_add_eq_sum, zero_add]
    exact Int.tdiv_nonneg (List.sum_nonneg hpos2) (Int.natCast_nonneg _)
  · rw [calculateStdDev]
    split_ifs
    · exact le_refl 0
    · exact Int.natCast_nonneg _

/-- Concrete instance of `summary_monotone_nonneg_spec` on the sorted pair
`[1, 5]` and the samples `[3, 1, 2]`. -/
theorem summary_monotone_nonneg_spec_witness :
    (List.Sorted (· ≤ ·) ([1, 5] : List Int) ∧
      calculatePercentile [1, 5] 25 ≤ calculatePercentile [1, 5] 75) ∧
    (([3, 1, 2] : List Int) ≠ [] ∧
      (calculateStats 4 [3, 1, 2]).P25 ≤ (calculateStats 4 [3, 1, 2]).P75 ∧
      (calculateStats 4 [3, 1, 2]).P75 ≤ (calculateStats 4 [3, 1, 2]).P95 ∧
      (calculateStats 4 [3, 1, 2]).P95 ≤ (calculateStats 4 [3, 1, 2]).P99 ∧
      0 ≤ (calculateStats 4 [3, 1, 2]).Mean ∧
      0 ≤ (calculateStats 4 [3, 1, 2]).StdDev) := by
  constructor
  · have hs : List.Sorted (· ≤ ·) ([1, 5] : List Int) := by decide
    exact ⟨hs, summary_monotone_nonneg_spec.1 [1, 5] hs 25 75
      (by norm_num) (by norm_num) (by norm_num)⟩
  · exact ⟨by decide, summary_monotone_nonneg_spec.2 4 [3, 1, 2] (by decide) (by decide)⟩

/-- Claim C2: the percentile reducer follows the linear-interpolation rule:
for `n = 1` it returns the single sample regardless of `p`; for `n ≥ 2` and
`p ∈ [0, 100]` it computes the fractional rank `r = (p/100)·(n-1)` with
`lo = ⌊r⌋`, `hi = lo + 1`, `w = r - lo`, returns the last (maximum) sample
when `hi ≥ n`, and otherwise `sorted[lo]·(1-w) + sorted[hi]·w` (floored to an
integer duration by the `time.Duration` conversion); in particular
`p25 = 17.5ms` and `p100 = 40ms` on `[10ms, 20ms, 30ms, 40ms]`. -/
theorem percentile_interpolation_spec :
    (∀ (s : List Int) (p : ℚ), s.length = 1 → calculatePercentile s p = s.getD 0 0) ∧
    (∀ (s : List Int) (p : ℚ), 2 ≤ s.length → 0 ≤ p →
      ((s.length : ℤ) ≤ ⌊p / 100 * ((s.length : ℚ) - 1)⌋ + 1 →
        calculatePercentile s p = s.getD (s.length - 1) 0) ∧
      ((∀ x ∈ s, 0 ≤ x) → ⌊p / 100 * ((s.length : ℚ) - 1)⌋ + 1 < (s.length : ℤ) →
        calculatePercentile s p =
          ⌊(s.getD ⌊p / 100 * ((s.length : ℚ) - 1)⌋.toNat 0 : ℚ)
              * (1 - Int.fract (p / 100 * ((s.length : ℚ) - 1)))
            + (s.getD (⌊p / 100 * ((s.length : ℚ) - 1)⌋.toNat + 1) 0 : ℚ)
              * Int.fract (p / 100 * ((s.length : ℚ) - 1))⌋)) ∧
    (∀ (s : List Int) (p : ℚ), 2 ≤ s.length → List.Sorted (· ≤ ·) s → 0 ≤ p →
      (s.length : ℤ) ≤ ⌊p / 100 * ((s.length : ℚ) - 1)⌋ + 1 →
      ∀ x ∈ s, x ≤ calculatePercentile s p) ∧
    calculatePercentile [10 * millisecond, 20 * millisecond, 30 * millisecond, 40 * millisecond]
      25 = 17500000 ∧
    calculatePercentile [10 * millisecond, 20 * millisecond, 30 * millisecond, 40 * millisecond]
      100 = 40 * millisecond := by
  have hrank0 : ∀ (s : List Int) (p : ℚ), 2 ≤ s.length → 0 ≤ p →
      0 ≤ p / 100 * ((s.length : ℚ) - 1) := by
    intro s p h2 hp
    have hcast : (2 : ℚ) ≤ (s.length : ℚ) := by exact_mod_cast h2
    exact mul_nonneg (div_nonneg hp (by norm_num)) (by linarith)
  refine ⟨?_, ?_, ?_, ?_, ?_⟩
  · intro s p h1
    rw [calculatePercentile, if_neg (by omega), if_pos h1]
  · intro s p h2 hp
    have hr0 := hrank0 s p h2 hp
    constructor
    · intro hcl
      rw [calculatePercentile_eq_of_two_le h2 p, ratTrunc_eq_floor hr0, if_pos hcl]
    · intro hnn hint
      rw [calculatePercentile_eq_of_two_le h2 p, ratTrunc_eq_floor hr0, if_neg (by omega)]
      rw [Int.self_sub_floor]
      have hw0 : 0 ≤ Int.fract (p / 100 * ((s.length : ℚ) - 1)) := Int.fract_nonneg _
      have hw1 : Int.fract (p / 100 * ((s.length : ℚ) - 1)) ≤ 1 :=
        le_of_lt (Int.fract_lt_one _)
      have hA : (0 : ℚ) ≤ (s.getD ⌊p / 100 * ((s.length : ℚ) - 1)⌋.toNat 0 : ℚ) := by
        exact_mod_cast getD_nonneg hnn _
      have hB : (0 : ℚ) ≤ (s.getD (⌊p / 100 * ((s.length : ℚ) - 1)⌋.toNat + 1) 0 : ℚ) := by
        exact_mod_cast getD_nonneg hnn _
      exact ratTrunc_eq_floor
        (add_nonneg (mul_nonneg hA (by linarith)) (mul_nonneg hB hw0))
  · intro s p h2 hs hp hcl x hx
    have hr0 := hrank0 s p h2 hp
    rw [calculatePercentile_eq_of_two_le h2 p, ratTrunc_eq_floor hr0, if_pos hcl]
    obtain ⟨i, hfound⟩ := List.mem_iff_get.mp hx
    have hgx : x = s.getD i.val 0 := by
      rw [List.getD_eq_getElem s 0 i.isLt, ← hfound]
      simp
    rw [hgx]
    exact sorted_getD_mono hs (by omega) (by omega)
  · simp only [calculatePercentile, ratTrunc, millisecond]
    norm_num [Int.floor_eq_iff]
  · simp only [calculatePercentile, ratTrunc, millisecond]
    norm_num [Int.floor_eq_iff]

/-- Concrete instances of `percentile_interpolation_spec`: the single-sample
rule on `[42]` and the interpolation rule on `[3, 5]` at p50. -/
theorem percentile_interpolation_spec_witness :
    (([42] : List Int).length = 1 ∧
      calculatePercentile [42] 25 = ([42] : List Int).getD 0 0) ∧
    calculatePercentile [3, 5] 50 = 4 := by
  constructor
  · exact ⟨rfl, percentile_interpolation_spec.1 [42] 25 rfl⟩
  · have h := (percentile_interpolation_spec.2.1 [3, 5] 50 (by norm_num) (by norm_num)).2
      (by decide) (by norm_num [Int.floor_eq_iff])
    rw [h]
    norm_num [Int.fract, Int.floor_eq_iff]
